import Mathlib

/-!
Verification development for the bikeparkingdb time-block aggregation and
visit-statistics engine.

This file is a shallow embedding of the relevant parts of
`modules/tt_util.py`, `modules/day_data.py` and `modules/constants.py`,
followed by theorems about the embedded definitions.

Modelling conventions:
* Python ints are `Int` (or `Nat` where the source guarantees
  non-negativity), Python floats are modelled as rationals (`Rat`),
  i.e. finite float values; NaN/infinity are outside the model.
* The external time value type `BTime` (`modules/tt_time.py`, not part of
  the sources here) is modelled from the spec as `Option Nat`:
  `none` is the canonical invalid/empty value `""`, `some n` is a valid
  time of `n` minutes since midnight with `n ≤ 1440`.  Its rendered string
  form is the zero-padded `HH:MM`, so lexicographic string comparison of
  rendered valid times agrees with numeric comparison, and `""` sorts
  first; the boolean comparisons below use that ordering.
* Fallible Python code (raising `TypeError`, `ValueError`, `KeyError`,
  `ZeroDivisionError`, `IndexError`) is modelled with `Except PyErr`.
-/

/-- Python exception kinds raised by the modelled code paths. -/
inductive PyErr where
  | typeError
  | valueError
  | keyError
  | zeroDivision
  | indexError
deriving DecidableEq

/-- Python-level input values handled by the single-value time parsers:
a string, an int, a (finite) float — modelled as a rational — or `None`. -/
inductive PyVal where
  | pstr : String → PyVal
  | pint : Int → PyVal
  | pfloat : Rat → PyVal
  | pnone : PyVal
deriving DecidableEq

/-- Python truthiness of the modelled values: the empty string, zero and
`None` are falsy, everything else is truthy. -/
def pyTruthy : PyVal → Bool
  | .pstr s => decide (s ≠ "")
  | .pint n => decide (n ≠ 0)
  | .pfloat q => decide (q ≠ 0)
  | .pnone => false

/-- Python `round` on a finite float (banker's rounding: halves go to the
nearest even integer). -/
def pyRound (q : Rat) : Int :=
  let n : Int := q.floor
  let f : Rat := q - (n : Rat)
  if f < 1 / 2 then n
  else if 1 / 2 < f then n + 1
  else if n % 2 = 0 then n else n + 1

/-- Numeric value of a decimal digit character. -/
def digitVal (c : Char) : Nat := c.toNat - '0'.toNat

/-- Character predicate for `[012]` in the time regex. -/
def is012 (c : Char) : Bool := c == '0' || c == '1' || c == '2'

/-- Python `int` applied to a non-empty string of decimal digits. -/
def natOfDigits (cs : List Char) : Nat :=
  cs.foldl (fun n c => n * 10 + digitVal c) 0

/-- Whether a character list matches the regex group `([012]*[0-9])`
exactly (non-empty, all digits, every char but the last in `[012]`). -/
def groupHOk (a : List Char) : Bool :=
  !a.isEmpty && a.all Char.isDigit && a.dropLast.all is012

/-- Whether a character list matches the regex group `([0-5][0-9])`
exactly. -/
def groupMOk : List Char → Bool
  | [c1, c2] => decide ('0' ≤ c1 ∧ c1 ≤ '5') && c2.isDigit
  | _ => false

/-- Matching of the time regex `^ *([012]*[0-9]):?([0-5][0-9]) *$`
(`tt_util.py` lines 249 and 301) against a string, returning the two
captured groups as numbers.  Because the pattern is anchored at both ends
and group 2 has fixed length 2, greedy backtracking admits exactly one
split: after stripping surrounding spaces, either the string contains a
colon (splitting the groups there) or group 1 is everything except the
last two characters.  (The Python `$` also tolerates one trailing newline;
such inputs are outside this model.) -/
def parseHM (s : String) : Option (Nat × Nat) :=
  let cs := ((s.data.dropWhile (· == ' ')).reverse.dropWhile (· == ' ')).reverse
  if cs.contains ':' then
    let a := cs.takeWhile (· != ':')
    let b := (cs.dropWhile (· != ':')).drop 1
    if groupHOk a && groupMOk b then some (natOfDigits a, natOfDigits b)
    else none
  else
    let a := cs.take (cs.length - 2)
    let b := cs.drop (cs.length - 2)
    if decide (3 ≤ cs.length) && groupHOk a && groupMOk b then
      some (natOfDigits a, natOfDigits b)
    else none

/-- Embedding of `tt_util.time_int` (lines 231-267): coerce a value to
minutes-since-midnight, `none` for anything unparseable or out of the
`[0, 1440]` range.  A float is rounded and then handled as an int. -/
def time_int (maybe_time : PyVal) : Option Int :=
  match maybe_time with
  | .pfloat q =>
      let r := pyRound q
      if 0 ≤ r ∧ r ≤ 1440 then some r else none
  | .pstr s =>
      match parseHM s with
      | none => none
      | some (h, m) =>
          if h > 24 ∨ m > 59 ∨ h * 60 + m > 1440 then none
          else some ((h * 60 + m : Nat) : Int)
  | .pint n => if 0 ≤ n ∧ n ≤ 1440 then some n else none
  | .pnone => none

/-- The digit character for `n % 10`. -/
def digitChar (n : Nat) : Char := Char.ofNat ('0'.toNat + n % 10)

/-- Python `f"{n:02d}"` for the two-digit numbers produced here. -/
def two_digits (n : Nat) : String := String.mk [digitChar (n / 10), digitChar n]

/-- The canonical `HH:MM` rendering (always length 5). -/
def hhmm (h m : Nat) : String := two_digits h ++ ":" ++ two_digits m

/-- Embedding of `tt_util.time_str` (lines 275-321) with `allow_now` and
`default_now` at their default `False` (so the `"now"` sentinel and
current-time paths, which depend on real time, are never taken). -/
def time_str (maybe_time : PyVal) : String :=
  match maybe_time with
  | .pfloat q =>
      let r := pyRound q
      if 0 ≤ r ∧ r ≤ 1440 then hhmm (r.toNat / 60) (r.toNat % 60) else ""
  | .pstr s =>
      match parseHM s with
      | none => ""
      | some (h, m) =>
          if h > 24 ∨ m > 59 ∨ h * 60 + m > 1440 then "" else hhmm h m
  | .pnone => ""
  | .pint n =>
      if 0 ≤ n ∧ n ≤ 1440 then hhmm (n.toNat / 60) (n.toNat % 60) else ""

/-- Modelled from the spec: the external `BTime` value type
(`modules/tt_time.py` is not among the sources).  A `BTime` is an integer
number of minutes since midnight in `[0, 1440]`, or the distinguished
invalid/empty value (`none`, rendered `""`).  Its constructor accepts the
same textual and numeric forms as the deprecated `time_int`/`time_str`
which it supersedes (`tt_util.py` FIXME comments, lines 245 and 293); the
real-time `"now"` sentinel is outside the model. -/
def btime : PyVal → Option Nat
  | .pfloat q =>
      let r := pyRound q
      if 0 ≤ r ∧ r ≤ 1440 then some r.toNat else none
  | .pstr s =>
      match parseHM s with
      | none => none
      | some (h, m) =>
          if h > 24 ∨ m > 59 ∨ h * 60 + m > 1440 then none
          else some (h * 60 + m)
  | .pint n => if 0 ≤ n ∧ n ≤ 1440 then some n.toNat else none
  | .pnone => none

/-- Modelled from the spec: constructing a `BTime` from an already-integer
minute count (valid exactly on `[0, 1440]`). -/
def btimeOfInt (n : Int) : Option Nat :=
  if 0 ≤ n ∧ n ≤ 1440 then some n.toNat else none

/-- Modelled from the spec: `str(BTime)` — `HH:MM` for a valid time,
`""` for the invalid value. -/
def btimeRender : Option Nat → String
  | none => ""
  | some n => hhmm (n / 60) (n % 60)

/-- Modelled from the spec: the `tidy` label form of a rendered time.  The
source's own comment (`tt_util.py` lines 546-547) shows labels keeping the
`HH:MM` shape (`"12:00"` becomes `"12:00+"`), so `tidy` is modelled as the
identity on rendered times. -/
def btimeTidy (s : String) : String := s

/-- Strict comparison of `BTime` values, matching Python string comparison
of their renderings: `""` sorts before every valid time, and valid times
(all rendered as zero-padded `HH:MM`) compare numerically. -/
def btimeLt : Option Nat → Option Nat → Bool
  | none, none => false
  | none, some _ => true
  | some _, none => false
  | some a, some b => decide (a < b)

/-- Non-strict `BTime` comparison (Python `<=` on the renderings). -/
def btimeLe (a b : Option Nat) : Bool := !btimeLt b a

/-! ### Generic helpers shared by the statistics functions

`pyDedup` and `counter` model `collections.Counter`: counts keyed by
value, keys in first-occurrence order.  `insertB`/`sortB` model Python's
`sorted` with a boolean comparison.  `pyRange` models `range(a, b, step)`
for a non-zero step.  `mapE` models a Python list comprehension whose body
may raise, evaluated left to right. -/

/-- Distinct elements of a list in first-occurrence order (the key order
of a Python dict or `Counter` built from the list). -/
def pyDedup {α : Type} [DecidableEq α] (l : List α) : List α :=
  l.foldl (fun acc x => if x ∈ acc then acc else acc ++ [x]) []

/-- Embedding of `collections.Counter(l)` as an association list:
one entry per distinct element (in first-occurrence order) with its
multiplicity. -/
def counter {α : Type} [DecidableEq α] (l : List α) : List (α × Nat) :=
  (pyDedup l).map (fun k => (k, l.count k))

/-- Insertion step of `sortB`. -/
def insertB {α : Type} (le : α → α → Bool) (x : α) : List α → List α
  | [] => [x]
  | y :: ys => if le x y then x :: y :: ys else y :: insertB le x ys

/-- Insertion sort with a boolean comparison (model of Python `sorted`,
which is stable; on the duplicate-free keys sorted here stability is
irrelevant). -/
def sortB {α : Type} (le : α → α → Bool) : List α → List α
  | [] => []
  | x :: xs => insertB le x (sortB le xs)

/-- Lexicographic comparison of character lists (Python string `<`). -/
def chLt : List Char → List Char → Bool
  | [], [] => false
  | [], _ :: _ => true
  | _ :: _, [] => false
  | a :: as, b :: bs =>
      if a < b then true else if b < a then false else chLt as bs

/-- Python `<` on strings (code-point lexicographic). -/
def pyStrLt (s t : String) : Bool := chLt s.data t.data

/-- Python `<=` on strings. -/
def pyStrLe (s t : String) : Bool := !pyStrLt t s

/-- Embedding of `range(a, b, step)` for `step ≠ 0` as a list. -/
def pyRange (a b step : Int) : List Int :=
  if 0 < step then
    if a < b then (List.range ((b - a - 1).toNat / step.toNat + 1)).map
      (fun i => a + step * (i : Int))
    else []
  else
    if b < a then (List.range ((a - b - 1).toNat / (-step).toNat + 1)).map
      (fun i => a + step * (i : Int))
    else []

/-- Left-to-right effectful map over `Except`, modelling a Python list
comprehension whose body may raise. -/
def mapE {α β : Type} (f : α → Except PyErr β) : List α → Except PyErr (List β)
  | [] => .ok []
  | x :: xs =>
      match f x with
      | .error e => .error e
      | .ok y =>
          match mapE f xs with
          | .error e => .error e
          | .ok ys => .ok (y :: ys)

/-- Value bound to a key in an association list (Python `dict` lookup). -/
def alistFind {β : Type} (l : List (String × β)) (k : String) : Option β :=
  match l.find? (fun p => p.1 == k) with
  | some p => some p.2
  | none => none

/-! ### Visit-statistics functions (`tt_util.py` lines 472-558) -/

/-- The per-value coercion step of `calculate_visit_frequencies`
(lines 476-481): an `int` is kept as-is, any other value goes through
`BTime(d).num` and is kept only when it is an int, i.e. when the time is
valid (the `.num` of the invalid time is `None` and is filtered out). -/
def pyCoerceDuration : PyVal → Option Int
  | .pint n => some n
  | v => (btime v).map (fun n => (n : Int))

/-- The coerced-and-filtered `durations` list of
`calculate_visit_frequencies`. -/
def keptDurations (durations_list : List PyVal) : List Int :=
  durations_list.filterMap pyCoerceDuration

/-- The categorized histogram payload of `calculate_visit_frequencies`:
each kept duration is mapped to `(d // category_width) * category_width`
(Python floor division, `Int.fdiv`) and the results are counted.  Only
meaningful when `category_width ≠ 0`. -/
def freqList (durations_list : List PyVal) (category_width : Int) :
    List (Int × Nat) :=
  counter ((keptDurations durations_list).map
    (fun d => d.fdiv category_width * category_width))

/-- Embedding of `tt_util.calculate_visit_frequencies` (lines 472-487).
When `category_width = 0` the comprehension's first division raises
`ZeroDivisionError` (so only when at least one duration survived
coercion). -/
def calculate_visit_frequencies (durations_list : List PyVal)
    (category_width : Int) : Except PyErr (List (Int × Nat)) :=
  if category_width = 0 ∧ keptDurations durations_list ≠ [] then
    .error .zeroDivision
  else .ok (freqList durations_list category_width)

/-- The largest count occurring in a histogram (0 for an empty one). -/
def maxCount (l : List (Int × Nat)) : Nat :=
  l.foldl (fun m p => max m p.2) 0

/-- Embedding of `Counter.most_common()` (line 506): the histogram
entries sorted by descending count. -/
def mostCommon (l : List (Int × Nat)) : List (Int × Nat) :=
  sortB (fun p q => decide (q.2 ≤ p.2)) l

/-- The label built for one mode category (line 509):
`f"{BTime(x + category_width / 2).tidy}"`, where `category_width / 2` is
Python float division, so the argument is the exact rational center,
rounded by the `BTime` constructor and rendered (`""` when the rounded
center is outside `[0, 1440]`). -/
def centerLabel (category_width : Int) (x : Int) : String :=
  btimeTidy (btimeRender (btime (.pfloat ((x : Rat) + (category_width : Rat) / 2))))

/-- Embedding of `tt_util.calculate_visit_modes` (lines 490-513).
`mosts[0][1]` raises `IndexError` when the histogram is empty. -/
def calculate_visit_modes (durations_list : List PyVal)
    (category_width : Int) : Except PyErr (List String × Nat) :=
  match calculate_visit_frequencies durations_list category_width with
  | .error e => .error e
  | .ok freq =>
      match mostCommon freq with
      | [] => .error .indexError
      | (_, occurences) :: _ =>
          let modes_numeric := sortB (fun a b => decide (a ≤ b))
            ((mostCommon freq).filterMap
              (fun p => if p.2 = occurences then some p.1 else none))
          .ok (modes_numeric.map (centerLabel category_width), occurences)

/-- The categorization of one element of `times_list` in
`time_distribution` (line 525): `str(BTime((BTime(t).num // w) * w))`.
When `BTime(t)` is invalid its `.num` is `None`, and `None // w` raises
`TypeError`; when `w = 0` the division raises `ZeroDivisionError`. -/
def catOne (category_width : Int) (t : PyVal) : Except PyErr String :=
  match btime t with
  | none => .error .typeError
  | some n =>
      if category_width = 0 then .error .zeroDivision
      else .ok (btimeRender (btimeOfInt
        ((Int.fdiv (n : Int) category_width) * category_width)))

/-- Resolution of the `start_time`/`end_time` bounds of
`time_distribution` (lines 530-531): a truthy argument is parsed with
`BTime`, otherwise the minimum (resp. maximum) key of `freq` is taken —
raising `ValueError` when `freq` is empty. -/
def resolveBound (arg : Option PyVal) (freq : List (String × Nat))
    (pick : String → List String → String) : Except PyErr (Option Nat) :=
  match arg with
  | some v =>
      if pyTruthy v then .ok (btime v)
      else match freq.map Prod.fst with
        | [] => .error .valueError
        | k :: ks => .ok (btime (.pstr (pick k ks)))
  | none =>
      match freq.map Prod.fst with
      | [] => .error .valueError
      | k :: ks => .ok (btime (.pstr (pick k ks)))

/-- Python `min` over a non-empty list of strings. -/
def minStr (k : String) (ks : List String) : String :=
  ks.foldl (fun a b => if pyStrLt b a then b else a) k

/-- Python `max` over a non-empty list of strings. -/
def maxStr (k : String) (ks : List String) : String :=
  ks.foldl (fun a b => if pyStrLt a b then b else a) k

/-- One step of the folding loop of `time_distribution` (lines 537-545)
over the `freq` entries: an in-grid category's count is stored; a category
below `start_time` (string comparison of the renderings, equivalently
numeric) is added to the `start_time` bucket; one above `end_time` is
added to the `end_time` bucket; anything else is silently skipped (the
loop has no `else`).  `+=` on a missing key raises `KeyError`. -/
def distStep (startN endN : Nat) (acc : List (Nat × Int) × Bool × Bool)
    (kc : Nat × Nat) : Except PyErr (List (Nat × Int) × Bool × Bool) :=
  let cs := acc.1
  let k := kc.1
  let c := (kc.2 : Int)
  if (cs.map Prod.fst).contains k then
    .ok (cs.map (fun p => if p.1 = k then (p.1, c) else p), acc.2.1, acc.2.2)
  else if k < startN then
    if (cs.map Prod.fst).contains startN then
      .ok (cs.map (fun p => if p.1 = startN then (p.1, p.2 + c) else p),
        true, acc.2.2)
    else .error .keyError
  else if k > endN then
    if (cs.map Prod.fst).contains endN then
      .ok (cs.map (fun p => if p.1 = endN then (p.1, p.2 + c) else p),
        acc.2.1, true)
    else .error .keyError
  else .ok acc

/-- Left fold over `Except`, modelling a Python `for` loop whose body may
raise. -/
def foldE {σ α : Type} (f : σ → α → Except PyErr σ) : σ → List α → Except PyErr σ
  | s, [] => .ok s
  | s, x :: xs =>
      match f s x with
      | .error e => .error e
      | .ok s' => foldE f s' xs

/-- Python `dict.pop(k)` followed by inserting `k ++ suffix` with the
popped value at the end (lines 549-554): `KeyError` if `k` is absent. -/
def popDecorate (l : List (String × Int)) (k : String) (suffix : String) :
    Except PyErr (List (String × Int)) :=
  match alistFind l k with
  | none => .error .keyError
  | some v => .ok ((l.filter (fun p => p.1 != k)) ++ [(k ++ suffix, v)])

/-- Embedding of `tt_util.time_distribution` (lines 516-558).  The freq
dict is keyed by rendered `HH:MM` strings and the loop compares those
strings; since every surviving key is a valid zero-padded rendering, the
model keys the working dict by the minute value and re-renders for the
decoration and final string sort, which agrees with the source's string
comparisons. -/
def time_distribution (times_list : List PyVal) (start_time end_time : Option PyVal)
    (category_width : Int) : Except PyErr (List (String × Int)) :=
  match mapE (catOne category_width) times_list with
  | .error e => .error e
  | .ok cat0 =>
  let categorized := cat0.filter (fun s => decide (s ≠ ""))
  let freq : List (String × Nat) := counter categorized
  match resolveBound start_time freq minStr with
  | .error e => .error e
  | .ok st =>
  match resolveBound end_time freq maxStr with
  | .error e => .error e
  | .ok en =>
  match st, en with
  | some startN, some endN =>
      if category_width = 0 then .error .valueError
      else
        let grid := pyRange (startN : Int) ((endN : Int) + 1) category_width
        let cats0 : List (Nat × Int) := grid.map (fun t => (t.toNat, 0))
        let freqN : List (Nat × Nat) := freq.filterMap
          (fun p => (btime (.pstr p.1)).map (fun n => (n, p.2)))
        match foldE (distStep startN endN) (cats0, false, false) freqN with
        | .error e => .error e
        | .ok (cs, have_unders, have_overs) =>
        let rendered : List (String × Int) :=
          cs.map (fun p => (btimeTidy (btimeRender (some p.1)), p.2))
        match (if have_unders then
            popDecorate rendered (btimeTidy (btimeRender (some startN))) "-"
          else .ok rendered) with
        | .error e => .error e
        | .ok step1 =>
        match (if have_overs then
            popDecorate step1 (btimeTidy (btimeRender (some endN))) "+"
          else .ok step1) with
        | .error e => .error e
        | .ok step2 =>
            .ok (sortB (fun p q => pyStrLe p.1 q.1) step2)
  | _, _ => .error .typeError

/-! ### Day data and time-block aggregation (`day_data.py`)

`calc_blocks` in the source (lines 204-272) is an unfinished draft: it
references an `Event` class and a free `block_start` helper that exist
nowhere in the sources, writes `day` where only `self` can be meant, and
appends to `Block` fields (`ins_list`, `outs_list`, `max_here`, ...) that
`Block.__init__` does not create (its draft analogue `most_full` starts at
0).  The event stream and those block fields are therefore modelled from
the spec (§4.1/§4.2/§3): events are the visits' valid check-in/check-out
times, grouped by minute, sorted ascending, excluding events after
`as_of_when`; each event carries the running occupancy set after applying
its tags-in then tags-out, as replayed by the source loop at lines
225-238.  The per-category regular/oversize pass (lines 248-270, which
reads rosters `day.regular`/`day.oversize` that `DayData` does not define)
is not modelled; no claim refers to it. -/

/-- Embedding of the `Visit` data holder (`day_data.py` lines 281-288);
times are `BTime` values, `none` for the blank `""`. -/
structure Visit where
  time_in : Option Nat
  time_out : Option Nat
  bike_id : String
deriving DecidableEq

/-- Embedding of the `DayData` fields used by aggregation
(`day_data.py` lines 55-66); identity and registration fields are
omitted as no modelled code reads them. -/
structure DayData where
  closing_time : Option Nat
  visits : List Visit
deriving DecidableEq

/-- All `time_in` and `time_out` values of a day's visits
(`day_data.py` line 162, including blank times of incomplete visits). -/
def DayData.eventTimes (d : DayData) : List (Option Nat) :=
  d.visits.map Visit.time_in ++ d.visits.map Visit.time_out

/-- Python `max(events, default="")` over `BTime` values. -/
def listMaxB (l : List (Option Nat)) : Option Nat :=
  l.foldl (fun a b => if btimeLt a b then b else a) none

/-- Embedding of `DayData.latest_event` (lines 150-164).  A falsy
`as_of_when` is replaced by `BTime("24:00")`; a truthy one is parsed and,
when invalid, `""` is returned.  The parsed value is never used again:
the maximum is taken over all events of the day. -/
def DayData.latest_event (d : DayData) (as_of_when : Option PyVal) : Option Nat :=
  match as_of_when with
  | none => listMaxB d.eventTimes
  | some v =>
      if pyTruthy v then
        match btime v with
        | none => none
        | some _ => listMaxB d.eventTimes
      else listMaxB d.eventTimes

/-- The configured block size `k.BLOCK_DURATION = 30`
(`constants.py` line 91). -/
def BLOCK_DURATION : Nat := 30

/-- The block-start computation `(atime.num // k.BLOCK_DURATION) *
k.BLOCK_DURATION` (line 316) on an already-valid minute count. -/
def blockStartNat (t : Nat) : Nat := t / BLOCK_DURATION * BLOCK_DURATION

/-- Embedding of `Block.block_start` (lines 305-317).  `BTime(atime)` is
never `None` (it is a `BTime` instance), so the guard at line 313 cannot
fire and an invalid time reaches `atime.num // k.BLOCK_DURATION`, where
`.num` is `None` and the division raises `TypeError`. -/
def Block.block_start (atime : PyVal) : Except PyErr (Option Nat) :=
  match btime atime with
  | none => .error .typeError
  | some n => .ok (some (blockStartNat n))

/-- Embedding of `Block.block_end` (lines 319-330): the block start plus
`BLOCK_DURATION - 1`, converted back to a `BTime` (invalid when the
result exceeds 1440). -/
def Block.block_end (atime : PyVal) : Except PyErr (Option Nat) :=
  match Block.block_start atime with
  | .error e => .error e
  | .ok none => .error .typeError
  | .ok (some s) => .ok (btimeOfInt ((s : Int) + (BLOCK_DURATION : Int) - 1))

/-- Modelled from the spec (§4.1, §4.2): one atomic event of the event
stream — a minute, the tags checked in and out at that minute, and the
running occupancy set (with its size) just after the event. -/
structure Event where
  event_time : Nat
  bikes_in : List String
  bikes_out : List String
  bikes_here : Finset String
  num_here_total : Nat
deriving DecidableEq

/-- The running-set update replayed per event (source lines 241-246 use
the same shape per block): union with the tags in, then difference with
the tags out. -/
def applyEv (s : Finset String) (bin bout : List String) : Finset String :=
  (s ∪ bin.toFinset) \ bout.toFinset

/-- Modelled from the spec: build the event list for the (already sorted,
duplicate-free) minute list `ts`, threading the running occupancy set. -/
def eventsGo (ins outs : List (Nat × String)) (here : Finset String) :
    List Nat → List Event
  | [] => []
  | t :: ts =>
      let bin := (ins.filter (fun p => p.1 = t)).map Prod.snd
      let bout := (outs.filter (fun p => p.1 = t)).map Prod.snd
      let here2 := applyEv here bin bout
      ⟨t, bin, bout, here2, here2.card⟩ :: eventsGo ins outs here2 ts

/-- The `(minute, tag)` pairs of one side (check-ins or check-outs) of the
visits, keeping valid times at or before `as_of_when` (spec §4.2: events
strictly later than `as_of_when` are excluded entirely). -/
def includedPairs (f : Visit → Option Nat) (d : DayData) (asOf : Option Nat) :
    List (Nat × String) :=
  d.visits.filterMap (fun v =>
    match f v with
    | some t => if btimeLe (some t) asOf then some (t, v.bike_id) else none
    | none => none)

/-- Modelled from the spec: `Event.calc_events(day, as_of_when)`
(referenced at `day_data.py` line 224 but defined nowhere in the
sources) — the time-ordered event stream of the day. -/
def calcEvents (d : DayData) (asOf : Option Nat) : List Event :=
  let ins := includedPairs Visit.time_in d asOf
  let outs := includedPairs Visit.time_out d asOf
  let times := sortB (fun a b => decide (a ≤ b))
    (pyDedup (ins.map Prod.fst ++ outs.map Prod.fst))
  eventsGo ins outs ∅ times

/-- The aggregated block record (`day_data.py`): `time_start` from
`Block.__init__` (line 294); the remaining fields are the ones the
`calc_blocks` draft populates (lines 233-247), modelled from the spec §3
since `Block.__init__` does not create them — its draft analogue
`most_full` starts at 0, so `max_here` starts at 0. -/
structure Block where
  time_start : Nat
  ins_list : List String
  outs_list : List String
  num_ins : Nat
  num_outs : Nat
  here_list : Finset String
  num_here : Nat
  max_here : Nat
  max_here_list : Finset String
deriving DecidableEq

/-- The within-block high-water fold (source lines 235-238): the maximum
`num_here_total` over the block's events (with its set), starting from
the initial `(0, ∅)`. -/
def maxHereFold (evs : List Event) : Nat × Finset String :=
  evs.foldl (fun p e =>
    if e.num_here_total > p.1 then (e.num_here_total, e.bikes_here) else p)
    (0, ∅)

/-- The per-block assembly of `calc_blocks` (lines 225-247): for each
block start of the grid, gather its events (the source updates
`blocks[bstart]` per event; every included event's block start lies on the
grid, so looking the events up by block start is equivalent), concatenate
their tags in time order, fold the high-water mark, and thread the
end-of-block occupancy set `here_set` through the grid in ascending
order (lines 241-247, dict iteration order). -/
def mkBlocks (events : List Event) : Finset String → List Nat → List Block
  | _, [] => []
  | here, b :: bs =>
      let evs := events.filter (fun e => blockStartNat e.event_time = b)
      let insl := (evs.map Event.bikes_in).flatten
      let outsl := (evs.map Event.bikes_out).flatten
      let here2 := applyEv here insl outsl
      let mh := maxHereFold evs
      { time_start := b, ins_list := insl, outs_list := outsl,
        num_ins := insl.length, num_outs := outsl.length,
        here_list := here2, num_here := here2.card,
        max_here := mh.1, max_here_list := mh.2 } :: mkBlocks events here2 bs

/-- Python `min(events)` over a non-empty list of `BTime` values. -/
def listMinB1 (x : Option Nat) (xs : List (Option Nat)) : Option Nat :=
  xs.foldl (fun a b => if btimeLt b a then b else a) x

/-- Python `max(events)` over a non-empty list of `BTime` values. -/
def listMaxB1 (x : Option Nat) (xs : List (Option Nat)) : Option Nat :=
  xs.foldl (fun a b => if btimeLt a b then b else a) x

/-- Embedding of `DayData._get_timeblock_starts` (lines 178-202): all
event times (including blank ones, which satisfy `"" <= as_of_when`) at
or before `as_of_when`; empty yields `[]`; otherwise the contiguous
30-minute grid from the earliest to the latest event's block.  A blank
minimum reaches `Block.block_start("")`, whose `.num` is `None` —
`TypeError`.  (Per spec §6 a valid time participates in integer contexts
via its minute value, which the `range` at line 198 requires.) -/
def getTimeblockStarts (d : DayData) (asOf : Option Nat) :
    Except PyErr (List Nat) :=
  match (d.eventTimes.filter (fun x => btimeLe x asOf)) with
  | [] => .ok []
  | x :: xs =>
      match listMinB1 x xs, listMaxB1 x xs with
      | some mn, some mx =>
          .ok (List.range' (blockStartNat mn)
            ((blockStartNat mx - blockStartNat mn) / BLOCK_DURATION + 1)
            BLOCK_DURATION)
      | _, _ => .error .typeError

/-- The `as_of_when` resolution of `calc_blocks` (lines 206-210): a falsy
or missing argument becomes the day's latest event, raised to the closing
time when earlier; a truthy argument is parsed with `BTime`. -/
def resolveAsOf (d : DayData) (as_of_when : Option PyVal) : Option Nat :=
  let dflt :=
    let a := d.latest_event (some (.pstr "24:00"))
    if btimeLt a d.closing_time then d.closing_time else a
  match as_of_when with
  | none => dflt
  | some v => if pyTruthy v then btime v else dflt

/-- Embedding of `DayData.calc_blocks` (lines 204-272), with the missing
`Event` machinery modelled from the spec as described above.  Output is
the block mapping as a list ordered by ascending block start (Python dict
insertion order). -/
def DayData.calc_blocks (d : DayData) (as_of_when : Option PyVal) :
    Except PyErr (List Block) :=
  let asOf := resolveAsOf d as_of_when
  match getTimeblockStarts d asOf with
  | .error e => .error e
  | .ok grid => .ok (mkBlocks (calcEvents d asOf) ∅ grid)

/-- The mode categories: every histogram key achieving the maximal
count, sorted ascending (`calculate_visit_modes` lines 507-508, with the
head count of `most_common()` expressed as `maxCount`). -/
def modeCategories (vs : List PyVal) (w : Int) : List Int :=
  sortB (fun a b => decide (a ≤ b))
    ((mostCommon (freqList vs w)).filterMap
      (fun p => if p.2 = maxCount (freqList vs w) then some p.1 else none))

/-- A concrete one-visit day (in 10:00, out 10:10) used as witness
data. -/
def dayW : DayData := ⟨none, [⟨some 600, some 610, "a"⟩]⟩

/-- The single block `dayW`'s aggregation produces. -/
def blkW : Block :=
  ⟨600, ["a"], ["a"], 1, 1, ∅, 0, 1, {"a"}⟩

/-! ### High-water-mark invariant (C3) -/

/-- The running occupancy set after replaying a list of events from a
starting set. -/
def runAfter (evs : List Event) (s : Finset String) : Finset String :=
  evs.foldl (fun a e => applyEv a e.bikes_in e.bikes_out) s

/-- The events form a replay chain from `s`: each event's recorded
occupancy is the update of its predecessor's, and its recorded count is
that set's size. -/
def ChainFrom : Finset String → List Event → Prop
  | _, [] => True
  | s, e :: es => e.bikes_here = applyEv s e.bikes_in e.bikes_out ∧
      e.num_here_total = e.bikes_here.card ∧ ChainFrom e.bikes_here es

/-- A one-visit day (in 10:00, out 11:05) whose aggregation has a
middle block with no events. -/
def dayC3 : DayData := ⟨none, [⟨some 600, some 665, "a"⟩]⟩

/-! ### Theorems -/

/-- C9: for every single-value time parse input (string, int, finite
float, or None), `time_int` returns either `None` or an integer number of
minutes in `[0, 1440]`, and `time_str` returns either the empty time or a
canonical `HH:MM` string denoting at most 1440 minutes; both are total
(never raise) on this input domain. -/
theorem c9_single_value_parses_bounded (v : PyVal) :
    (time_int v = none ∨ ∃ n : Int, time_int v = some n ∧ 0 ≤ n ∧ n ≤ 1440) ∧
    (time_str v = "" ∨ ∃ h m : Nat, time_str v = hhmm h m ∧ h * 60 + m ≤ 1440) := by
  cases v with
  | pstr s =>
      refine ⟨?_, ?_⟩
      · cases hp : parseHM s with
        | none => exact Or.inl (by simp [time_int, hp])
        | some hm =>
            obtain ⟨h, m⟩ := hm
            by_cases hc : h > 24 ∨ m > 59 ∨ h * 60 + m > 1440
            · exact Or.inl (by simp [time_int, hp, hc])
            · refine Or.inr ⟨((h * 60 + m : Nat) : Int), by simp [time_int, hp, hc], ?_, ?_⟩
              · exact Int.ofNat_nonneg _
              · push_neg at hc
                exact_mod_cast hc.2.2
      · cases hp : parseHM s with
        | none => exact Or.inl (by simp [time_str, hp])
        | some hm =>
            obtain ⟨h, m⟩ := hm
            by_cases hc : h > 24 ∨ m > 59 ∨ h * 60 + m > 1440
            · exact Or.inl (by simp [time_str, hp, hc])
            · refine Or.inr ⟨h, m, by simp [time_str, hp, hc], ?_⟩
              push_neg at hc
              exact hc.2.2
  | pint n =>
      refine ⟨?_, ?_⟩
      · by_cases hc : 0 ≤ n ∧ n ≤ 1440
        · exact Or.inr ⟨n, by simp [time_int, hc], hc.1, hc.2⟩
        · exact Or.inl (by simp [time_int, hc])
      · by_cases hc : 0 ≤ n ∧ n ≤ 1440
        · refine Or.inr ⟨n.toNat / 60, n.toNat % 60, by simp [time_str, hc], ?_⟩
          have h1 : n.toNat ≤ 1440 := by omega
          omega
        · exact Or.inl (by simp [time_str, hc])
  | pfloat q =>
      refine ⟨?_, ?_⟩
      · by_cases hc : 0 ≤ pyRound q ∧ pyRound q ≤ 1440
        · exact Or.inr ⟨pyRound q, by simp [time_int, hc], hc.1, hc.2⟩
        · exact Or.inl (by simp [time_int, hc])
      · by_cases hc : 0 ≤ pyRound q ∧ pyRound q ≤ 1440
        · refine Or.inr ⟨(pyRound q).toNat / 60, (pyRound q).toNat % 60,
            by simp [time_str, hc], ?_⟩
          have h1 : (pyRound q).toNat ≤ 1440 := by omega
          omega
        · exact Or.inl (by simp [time_str, hc])
  | pnone => exact ⟨Or.inl rfl, Or.inl rfl⟩

theorem mem_insertB {α : Type} (le : α → α → Bool) (x : α) (l : List α) (a : α) :
    a ∈ insertB le x l ↔ a = x ∨ a ∈ l := by
  induction l with
  | nil => simp [insertB]
  | cons y ys ih =>
      by_cases h : le x y = true
      · simp [insertB, h]
      · simp only [insertB, if_neg h, List.mem_cons, ih]
        tauto

theorem perm_insertB {α : Type} (le : α → α → Bool) (x : α) (l : List α) :
    (insertB le x l).Perm (x :: l) := by
  induction l with
  | nil => simp [insertB]
  | cons y ys ih =>
      by_cases h : le x y = true
      · simp [insertB, h]
      · simp only [insertB, if_neg h]
        exact (ih.cons y).trans (List.Perm.swap x y ys)

theorem perm_sortB {α : Type} (le : α → α → Bool) (l : List α) :
    (sortB le l).Perm l := by
  induction l with
  | nil => simp [sortB]
  | cons x xs ih => exact (perm_insertB le x (sortB le xs)).trans (ih.cons x)

theorem pairwise_insertB {α : Type} (le : α → α → Bool)
    (htrans : ∀ a b c, le a b = true → le b c = true → le a c = true)
    (htot : ∀ a b, le a b = true ∨ le b a = true)
    (x : α) (l : List α) (hl : l.Pairwise (fun a b => le a b = true)) :
    (insertB le x l).Pairwise (fun a b => le a b = true) := by
  induction l with
  | nil => simp [insertB]
  | cons y ys ih =>
      rcases List.pairwise_cons.mp hl with ⟨hy, hys⟩
      by_cases h : le x y = true
      · simp only [insertB, if_pos h]
        refine List.pairwise_cons.mpr ⟨?_, hl⟩
        intro b hb
        rcases List.mem_cons.mp hb with hb | hb
        · exact hb ▸ h
        · exact htrans x y b h (hy b hb)
      · simp only [insertB, if_neg h]
        refine List.pairwise_cons.mpr ⟨?_, ih hys⟩
        intro b hb
        rcases (mem_insertB le x ys b).mp hb with hb | hb
        · rcases htot x y with h' | h'
          · exact absurd h' h
          · exact hb ▸ h'
        · exact hy b hb

theorem pairwise_sortB {α : Type} (le : α → α → Bool)
    (htrans : ∀ a b c, le a b = true → le b c = true → le a c = true)
    (htot : ∀ a b, le a b = true ∨ le b a = true)
    (l : List α) : (sortB le l).Pairwise (fun a b => le a b = true) := by
  induction l with
  | nil => simp [sortB]
  | cons x xs ih => exact pairwise_insertB le htrans htot x (sortB le xs) ih

theorem mem_pyDedup {α : Type} [DecidableEq α] (l : List α) (a : α) :
    a ∈ pyDedup l ↔ a ∈ l := by
  suffices h : ∀ acc : List α,
      (a ∈ l.foldl (fun acc x => if x ∈ acc then acc else acc ++ [x]) acc ↔
        a ∈ acc ∨ a ∈ l) by
    simpa [pyDedup] using h []
  induction l with
  | nil => intro acc; simp
  | cons x xs ih =>
      intro acc
      by_cases hx : x ∈ acc
      · simp only [List.foldl_cons, if_pos hx, ih acc, List.mem_cons]
        constructor
        · rintro (h | h)
          · exact Or.inl h
          · exact Or.inr (Or.inr h)
        · rintro (h | h | h)
          · exact Or.inl h
          · exact Or.inl (h ▸ hx)
          · exact Or.inr h
      · simp only [List.foldl_cons, if_neg hx, ih (acc ++ [x]), List.mem_append,
          List.mem_singleton, List.mem_cons]
        tauto

theorem nodup_pyDedup {α : Type} [DecidableEq α] (l : List α) :
    (pyDedup l).Nodup := by
  suffices h : ∀ acc : List α, acc.Nodup →
      (l.foldl (fun acc x => if x ∈ acc then acc else acc ++ [x]) acc).Nodup by
    exact h [] List.nodup_nil
  induction l with
  | nil => intro acc hacc; exact hacc
  | cons x xs ih =>
      intro acc hacc
      by_cases hx : x ∈ acc
      · rw [List.foldl_cons]
        simp only [if_pos hx]
        exact ih acc hacc
      · rw [List.foldl_cons]
        simp only [if_neg hx]
        exact ih (acc ++ [x]) (by simp [List.nodup_append, hacc, hx])

theorem mem_counter {α : Type} [DecidableEq α] (l : List α) (k : α) (c : Nat) :
    (k, c) ∈ counter l ↔ k ∈ l ∧ c = l.count k := by
  simp only [counter, List.mem_map, Prod.mk.injEq]
  constructor
  · rintro ⟨k', hk', rfl, rfl⟩
    exact ⟨(mem_pyDedup l k').mp hk', rfl⟩
  · rintro ⟨hk, rfl⟩
    exact ⟨k, (mem_pyDedup l k).mpr hk, rfl, rfl⟩

theorem counter_keys_nodup {α : Type} [DecidableEq α] (l : List α) :
    ((counter l).map Prod.fst).Nodup := by
  have h : (counter l).map Prod.fst = pyDedup l := by
    rw [counter, List.map_map]
    exact List.map_id _
  exact h ▸ nodup_pyDedup l

theorem counter_ne_nil {α : Type} [DecidableEq α] (l : List α) (h : l ≠ []) :
    counter l ≠ [] := by
  intro hc
  rcases List.exists_mem_of_ne_nil l h with ⟨a, ha⟩
  have : (a, l.count a) ∈ counter l := (mem_counter l a _).mpr ⟨ha, rfl⟩
  simp [hc] at this

/-! ### Claim theorems -/

/-- C10: for every day and every truthy, valid `as_of_when`,
`DayData.latest_event` returns the maximum over all of the day's
`time_in` and `time_out` values — identical to the result with
`as_of_when` omitted; the argument is parsed but never restricts which
events are considered. -/
theorem c10_latest_event_ignores_as_of_when (d : DayData) (v : PyVal)
    (htruthy : pyTruthy v = true) (hvalid : (btime v).isSome = true) :
    d.latest_event (some v) = listMaxB d.eventTimes ∧
    d.latest_event (some v) = d.latest_event none := by
  obtain ⟨n, hn⟩ := Option.isSome_iff_exists.mp hvalid
  constructor <;> simp [DayData.latest_event, htruthy, hn]

/-- Witness for C10 at a concrete day and a concrete truthy valid
`as_of_when` that is earlier than the day's latest event. -/
theorem c10_latest_event_witness :
    pyTruthy (.pstr "10:30") = true ∧ (btime (.pstr "10:30")).isSome = true ∧
    DayData.latest_event ⟨none, [⟨some 600, some 665, "a"⟩]⟩ (some (.pstr "10:30")) =
      DayData.latest_event ⟨none, [⟨some 600, some 665, "a"⟩]⟩ none :=
  ⟨by decide, by decide,
    (c10_latest_event_ignores_as_of_when ⟨none, [⟨some 600, some 665, "a"⟩]⟩
      (.pstr "10:30") (by decide) (by decide)).2⟩

/-- C7 (amended): for every valid time `t ≤ 1439`, the block containing
`t` starts at `t / BLOCK_DURATION * BLOCK_DURATION` and `block_end`
returns that start plus `BLOCK_DURATION - 1`.  (At `t = 1440` the start
is still correct but the end, 1469, exceeds 1440 and `block_end` returns
the invalid time instead — see the counterexample.) -/
theorem c7_block_boundaries (t : Nat) (ht : t ≤ 1439) :
    Block.block_start (.pint (t : Int)) =
      .ok (some (t / BLOCK_DURATION * BLOCK_DURATION)) ∧
    Block.block_end (.pint (t : Int)) =
      .ok (some (t / BLOCK_DURATION * BLOCK_DURATION + (BLOCK_DURATION - 1))) := by
  have hbt : btime (.pint (t : Int)) = some t := by
    simp only [btime, btimeOfInt]
    rw [if_pos (by constructor <;> omega)]
    simp
  have hstart : Block.block_start (.pint (t : Int)) = .ok (some (blockStartNat t)) := by
    simp [Block.block_start, hbt]
  refine ⟨hstart, ?_⟩
  have hsle : blockStartNat t ≤ 1410 := by
    simp only [blockStartNat, BLOCK_DURATION]
    omega
  simp only [Block.block_end, hstart, btimeOfInt, blockStartNat, BLOCK_DURATION]
  rw [if_pos (by constructor <;> omega)]
  simp only [Except.ok.injEq, Option.some.injEq]
  omega

/-- Counterexample for C7 as stated: 1440 is a valid time, its block
start is 1440, but `block_end` yields the invalid time (the last minute
1469 exceeds 1440), not `start + BLOCK_DURATION - 1`. -/
theorem c7_block_end_midnight_cex :
    Block.block_start (.pint 1440) = .ok (some 1440) ∧
    Block.block_end (.pint 1440) = .ok none := by
  exact ⟨rfl, rfl⟩

/-- Witness for C7 at `t = 95`: block start 90, block end 119. -/
theorem c7_block_boundaries_witness :
    95 ≤ 1439 ∧ Block.block_start (.pint 95) = .ok (some 90) ∧
    Block.block_end (.pint 95) = .ok (some 119) := by
  have h := c7_block_boundaries 95 (by norm_num)
  exact ⟨by norm_num, h.1, h.2⟩

/-- C5 (amended): for empty inputs, aggregating a day with no visits
returns the empty block mapping and the frequency histogram of an empty
list is the empty mapping, without raising; but `calculate_visit_modes`
of an empty list raises `IndexError` (`mosts[0][1]`), and
`time_distribution` of an empty list with omitted bounds raises
`ValueError` (`min`/`max` of an empty dict). -/
theorem c5_empty_inputs (c : Option Nat) (a : Option PyVal) (w : Int) :
    DayData.calc_blocks ⟨c, []⟩ a = .ok [] ∧
    calculate_visit_frequencies [] w = .ok [] ∧
    calculate_visit_modes [] w = .error .indexError ∧
    time_distribution [] none none w = .error .valueError := by
  have hfreq : calculate_visit_frequencies [] w = .ok [] := by
    simp [calculate_visit_frequencies, keptDurations, freqList, counter, pyDedup]
  refine ⟨rfl, hfreq, ?_, rfl⟩
  simp [calculate_visit_modes, hfreq, mostCommon, sortB]

/-- Counterexample for C5 as stated: the mode of an empty list raises
rather than returning a defined "no mode" result. -/
theorem c5_mode_empty_raises_cex :
    calculate_visit_modes [] 30 = .error .indexError ∧
    time_distribution [] none none 30 = .error .valueError := ⟨rfl, rfl⟩

/-- C1 (amended): on `distribution(values=[5,35,65], start=20, end=50,
category_width=30)` the 5-valued category (start 0) is folded into the
bucket starting at 20 (label decorated `-`) and the 65-valued category
(start 60) into the bucket starting at 50 (label decorated `+`), but the
35-valued category (natural start 30, strictly inside the range yet not
on the start-aligned grid {20, 50}) is silently dropped: the loop's
`in`/`below`/`above` cases all miss it, so the output is exactly
`{"00:20-": 1, "00:50+": 1}`. -/
theorem c1_distribution_folds_and_drops :
    time_distribution [.pint 5, .pint 35, .pint 65]
      (some (.pint 20)) (some (.pint 50)) 30 =
      .ok [("00:20-", 1), ("00:50+", 1)] := rfl

/-- Counterexample for C1 as stated: the total of the distribution's
counts is 2, not 3 — the 35-valued item is in no bucket, so no center
bucket holds it with count 1. -/
theorem c1_center_bucket_lost_cex :
    (time_distribution [.pint 5, .pint 35, .pint 65]
      (some (.pint 20)) (some (.pint 50)) 30).map
        (fun l => (l.map Prod.snd).sum) = .ok 2 := rfl

/-- C8 (amended): a category width of 0 makes all three statistics
functions raise `ZeroDivisionError` at the first categorized value
(given at least one value survives coercion); but a *negative* width is
not rejected: frequency (and hence mode) simply computes with Python's
floored division — see the counterexample. -/
theorem c8_zero_width_raises (vs ts : List PyVal) (s e : Option PyVal)
    (hvs : keptDurations vs ≠ []) (hts : ts ≠ [])
    (hcoer : ∀ t ∈ ts, (btime t).isSome = true) :
    calculate_visit_frequencies vs 0 = .error .zeroDivision ∧
    calculate_visit_modes vs 0 = .error .zeroDivision ∧
    time_distribution ts s e 0 = .error .zeroDivision := by
  obtain ⟨t, ts', rfl⟩ : ∃ t ts', ts = t :: ts' := by
    cases ts with
    | nil => exact absurd rfl hts
    | cons t ts' => exact ⟨t, ts', rfl⟩
  obtain ⟨n, hn⟩ := Option.isSome_iff_exists.mp (hcoer t (by simp))
  have hfreq : calculate_visit_frequencies vs 0 =
      .error .zeroDivision := by
    simp [calculate_visit_frequencies, hvs]
  refine ⟨hfreq, ?_, ?_⟩
  · simp [calculate_visit_modes, hfreq]
  · simp [time_distribution, mapE, catOne, hn]

/-- Counterexample for C8 as stated: width −30 (≤ 0) does not fail fast;
the frequency histogram happily returns `{60: 1}` for the single value
35, because `35 // -30 = -2` and `-2 * -30 = 60`. -/
theorem c8_negative_width_cex :
    calculate_visit_frequencies [.pint 35] (-30) = .ok [(60, 1)] := rfl

/-- Witness for C8 at concrete inputs. -/
theorem c8_zero_width_witness :
    keptDurations [PyVal.pint 10] ≠ [] ∧ ([PyVal.pint 10] : List PyVal) ≠ [] ∧
    calculate_visit_frequencies [PyVal.pint 10] 0 = .error .zeroDivision ∧
    calculate_visit_modes [PyVal.pint 10] 0 = .error .zeroDivision ∧
    time_distribution [PyVal.pint 10] none none 0 = .error .zeroDivision := by
  have h := c8_zero_width_raises [PyVal.pint 10] [PyVal.pint 10] none none
    (by decide) (by decide) (by decide)
  exact ⟨by decide, by decide, h.1, h.2.1, h.2.2⟩

/-- C6 (amended): for every input list and positive width the frequency
histogram returns (without raising) counts keyed by
`(d // width) * width` over the kept durations, where coercion keeps
`int` values *as-is, unvalidated* (even negative or beyond 1440), and
coerces every non-int value through the time type, discarding it when
invalid. -/
theorem c6_frequency_histogram (vs : List PyVal) (w : Int) (hw : 0 < w) :
    calculate_visit_frequencies vs w = .ok (freqList vs w) ∧
    (∀ k c, (k, c) ∈ freqList vs w ↔
      (k ∈ (keptDurations vs).map (fun d => d.fdiv w * w) ∧
       c = ((keptDurations vs).map (fun d => d.fdiv w * w)).count k)) ∧
    (∀ n : Int, pyCoerceDuration (.pint n) = some n) ∧
    (∀ s : String, btime (.pstr s) = none → pyCoerceDuration (.pstr s) = none) := by
  refine ⟨?_, ?_, fun n => rfl, ?_⟩
  · have hne : ¬(w = 0 ∧ keptDurations vs ≠ []) := by
      rintro ⟨rfl, -⟩; omega
    simp [calculate_visit_frequencies, hne]
  · intro k c
    simpa [freqList] using
      mem_counter ((keptDurations vs).map (fun d => d.fdiv w * w)) k c
  · intro s hs
    simp [pyCoerceDuration, hs]

/-- Counterexample for C6 as stated: the int −50 is not a valid number
of minutes, so coercion to *validated* minutes would discard it, yet the
histogram keeps it unvalidated and returns the category −60. -/
theorem c6_unvalidated_int_cex :
    calculate_visit_frequencies [.pint (-50)] 30 = .ok [(-60, 1)] := rfl

/-- Witness for C6: one kept int, one coerced string (both minute 90),
one discarded `None`. -/
theorem c6_frequency_histogram_witness :
    (0 : Int) < 30 ∧
    calculate_visit_frequencies [.pint 90, .pstr "1:30", .pnone] 30 =
      .ok (freqList [.pint 90, .pstr "1:30", .pnone] 30) ∧
    freqList [.pint 90, .pstr "1:30", .pnone] 30 = [(90, 2)] :=
  ⟨by norm_num,
    (c6_frequency_histogram [.pint 90, .pstr "1:30", .pnone] 30 (by norm_num)).1,
    rfl⟩

/-! ### Mode characterization (C4) -/

theorem foldl_max_ge_init (l : List (Int × Nat)) (b : Nat) :
    b ≤ l.foldl (fun m p => max m p.2) b := by
  induction l generalizing b with
  | nil => simp
  | cons x xs ih => exact le_trans (le_max_left b x.2) (ih (max b x.2))

theorem foldl_max_ge_mem (l : List (Int × Nat)) (b : Nat) :
    ∀ p ∈ l, p.2 ≤ l.foldl (fun m p => max m p.2) b := by
  induction l generalizing b with
  | nil => simp
  | cons x xs ih =>
      intro p hp
      rcases List.mem_cons.mp hp with rfl | hp
      · exact le_trans (le_max_right b p.2) (foldl_max_ge_init xs _)
      · exact ih _ p hp

theorem maxCount_ge (l : List (Int × Nat)) : ∀ p ∈ l, p.2 ≤ maxCount l :=
  foldl_max_ge_mem l 0

theorem foldl_max_le (l : List (Int × Nat)) (b c : Nat) (hb : b ≤ c)
    (h : ∀ p ∈ l, p.2 ≤ c) : l.foldl (fun m p => max m p.2) b ≤ c := by
  induction l generalizing b with
  | nil => simpa using hb
  | cons x xs ih =>
      exact ih _ (max_le hb (h x (by simp))) (fun p hp => h p (by simp [hp]))

theorem maxCount_le (l : List (Int × Nat)) (c : Nat) (h : ∀ p ∈ l, p.2 ≤ c) :
    maxCount l ≤ c :=
  foldl_max_le l 0 c (Nat.zero_le c) h

theorem mostCommon_perm (l : List (Int × Nat)) : (mostCommon l).Perm l :=
  perm_sortB _ l

theorem mostCommon_pairwise (l : List (Int × Nat)) :
    (mostCommon l).Pairwise (fun p q => q.2 ≤ p.2) := by
  have h := pairwise_sortB (fun p q : Int × Nat => decide (q.2 ≤ p.2))
    (fun a b c hab hbc => decide_eq_true
      (le_trans (of_decide_eq_true hbc) (of_decide_eq_true hab)))
    (fun a b => by
      rcases Nat.le_total b.2 a.2 with h | h
      · exact Or.inl (decide_eq_true h)
      · exact Or.inr (decide_eq_true h)) l
  exact h.imp (fun hab => of_decide_eq_true hab)

theorem counter_nodup {α : Type} [DecidableEq α] (l : List α) :
    (counter l).Nodup := by
  refine List.Nodup.map ?_ (nodup_pyDedup l)
  intro a b hab
  exact congrArg Prod.fst hab

/-- C4 (amended): for every non-empty list of coercible duration values
and every positive width, `calculate_visit_modes` returns exactly the
categories achieving the maximum histogram count — sorted strictly
ascending, with ties producing one entry per tied category, never an
arbitrary single pick — together with that maximum count; each category
is represented by the *label* of its center `start + width/2` (the
center rounded to a minute and rendered, which is the canonical invalid
label `""` whenever the rounded center exceeds 1440 — see the
counterexample). -/
theorem c4_modes_characterized (vs : List PyVal) (w : Int) (hw : 0 < w)
    (hne : vs ≠ []) (hco : ∀ v ∈ vs, (pyCoerceDuration v).isSome = true) :
    calculate_visit_modes vs w =
      .ok ((modeCategories vs w).map (centerLabel w), maxCount (freqList vs w)) ∧
    (modeCategories vs w).Pairwise (· < ·) ∧
    (∀ k : Int, k ∈ modeCategories vs w ↔
      (k, maxCount (freqList vs w)) ∈ freqList vs w) ∧
    (∀ p ∈ freqList vs w, p.2 ≤ maxCount (freqList vs w)) := by
  have hkept : keptDurations vs ≠ [] := by
    obtain ⟨v, vs', rfl⟩ : ∃ v vs', vs = v :: vs' := by
      cases vs with
      | nil => exact absurd rfl hne
      | cons v vs' => exact ⟨v, vs', rfl⟩
    obtain ⟨n, hn⟩ := Option.isSome_iff_exists.mp (hco v (by simp))
    simp [keptDurations, List.filterMap_cons, hn]
  have hfe : calculate_visit_frequencies vs w = .ok (freqList vs w) := by
    have hne0 : ¬(w = 0 ∧ keptDurations vs ≠ []) := by rintro ⟨rfl, -⟩; omega
    simp [calculate_visit_frequencies, hne0]
  have hfreqne : freqList vs w ≠ [] := by
    apply counter_ne_nil
    simpa using hkept
  have hmcne : mostCommon (freqList vs w) ≠ [] := by
    intro hmc
    have h := mostCommon_perm (freqList vs w)
    rw [hmc] at h
    exact hfreqne h.symm.eq_nil
  obtain ⟨k0, occ, rest, hmc⟩ :
      ∃ k0 occ rest, mostCommon (freqList vs w) = (k0, occ) :: rest := by
    cases h : mostCommon (freqList vs w) with
    | nil => exact absurd h hmcne
    | cons p rest =>
        obtain ⟨k0, occ⟩ := p
        exact ⟨k0, occ, rest, rfl⟩
  have hdesc := mostCommon_pairwise (freqList vs w)
  rw [hmc] at hdesc
  have hrest : ∀ q ∈ rest, q.2 ≤ occ := by
    intro q hq
    exact (List.pairwise_cons.mp hdesc).1 q hq
  have hall : ∀ p ∈ freqList vs w, p.2 ≤ occ := by
    intro p hp
    have hp' : p ∈ (k0, occ) :: rest := by
      rw [← hmc]
      exact (mostCommon_perm (freqList vs w)).symm.mem_iff.mp hp
    rcases List.mem_cons.mp hp' with rfl | hp''
    · exact le_refl _
    · exact hrest p hp''
  have hheadmem : (k0, occ) ∈ freqList vs w := by
    have h : (k0, occ) ∈ mostCommon (freqList vs w) := by
      rw [hmc]; exact List.mem_cons_self _ _
    exact (mostCommon_perm (freqList vs w)).mem_iff.mp h
  have hocc : occ = maxCount (freqList vs w) :=
    le_antisymm (maxCount_ge _ _ hheadmem) (maxCount_le _ _ hall)
  have hresult : calculate_visit_modes vs w =
      .ok ((modeCategories vs w).map (centerLabel w), maxCount (freqList vs w)) := by
    rw [modeCategories, ← hocc]
    simp only [calculate_visit_modes, hfe, hmc]
  have hfnodup : (freqList vs w).Nodup := counter_nodup _
  have hmcnodup : (mostCommon (freqList vs w)).Nodup :=
    (mostCommon_perm (freqList vs w)).nodup_iff.mpr hfnodup
  have hfmnodup : ((mostCommon (freqList vs w)).filterMap
      (fun p => if p.2 = maxCount (freqList vs w) then some p.1 else none)).Nodup := by
    refine List.Nodup.filterMap ?_ hmcnodup
    intro a a' b hb hb'
    have ha : a = (b, maxCount (freqList vs w)) := by
      by_cases h2 : a.2 = maxCount (freqList vs w)
      · rw [if_pos h2] at hb
        have := Option.some.inj hb
        exact Prod.ext this h2
      · rw [if_neg h2] at hb
        cases hb
    have ha' : a' = (b, maxCount (freqList vs w)) := by
      by_cases h2 : a'.2 = maxCount (freqList vs w)
      · rw [if_pos h2] at hb'
        have := Option.some.inj hb'
        exact Prod.ext this h2
      · rw [if_neg h2] at hb'
        cases hb'
    rw [ha, ha']
  have hmodesnodup : (modeCategories vs w).Nodup :=
    (perm_sortB _ _).nodup_iff.mpr hfmnodup
  have hmodesle : (modeCategories vs w).Pairwise (· ≤ ·) := by
    have h := pairwise_sortB (fun a b : Int => decide (a ≤ b))
      (fun a b c hab hbc => decide_eq_true
        (le_trans (of_decide_eq_true hab) (of_decide_eq_true hbc)))
      (fun a b => by
        rcases le_total a b with h | h
        · exact Or.inl (decide_eq_true h)
        · exact Or.inr (decide_eq_true h))
      ((mostCommon (freqList vs w)).filterMap
        (fun p => if p.2 = maxCount (freqList vs w) then some p.1 else none))
    exact h.imp (fun hab => of_decide_eq_true hab)
  refine ⟨hresult, ?_, ?_, hocc ▸ hall⟩
  · exact (hmodesle.and hmodesnodup).imp (fun h => lt_of_le_of_ne h.1 h.2)
  · intro k
    constructor
    · intro hk
      have hk' := (perm_sortB _ _).mem_iff.mp hk
      obtain ⟨p, hp, hpk⟩ := List.mem_filterMap.mp hk'
      by_cases h2 : p.2 = maxCount (freqList vs w)
      · rw [if_pos h2] at hpk
        have h1 := Option.some.inj hpk
        have hpe : p = (k, maxCount (freqList vs w)) := Prod.ext h1 h2
        rw [← hpe]
        exact (mostCommon_perm (freqList vs w)).mem_iff.mp hp
      · rw [if_neg h2] at hpk
        cases hpk
    · intro hk
      apply (perm_sortB _ _).mem_iff.mpr
      refine List.mem_filterMap.mpr ⟨(k, maxCount (freqList vs w)), ?_, by simp⟩
      exact (mostCommon_perm (freqList vs w)).symm.mem_iff.mp hk

/-- Counterexample for C4 as stated: for the single (coercible, valid)
duration 1440 the unique maximal category is 1440, whose center is
1455; the returned representation is the canonical invalid label `""`,
which does not represent the center. -/
theorem c4_mode_boundary_cex :
    calculate_visit_modes [.pint 1440] 30 = .ok ([""], 1) ∧
    freqList [.pint 1440] 30 = [(1440, 1)] ∧
    centerLabel 30 1440 = "" := by
  have hcl : centerLabel 30 1440 = "" := by
    norm_num [centerLabel, btime, btimeTidy, btimeRender, pyRound, Rat.floor_def']
  refine ⟨?_, rfl, hcl⟩
  have hfe : calculate_visit_frequencies [.pint 1440] 30 =
      .ok [((1440 : Int), 1)] := rfl
  have hmcr : mostCommon [((1440 : Int), 1)] = [((1440 : Int), 1)] := rfl
  simp only [calculate_visit_modes, hfe, hmcr]
  simp [sortB, insertB, hcl]

/-- Witness for C4 on `[10,10,40,40,40]` with width 30: single mode
category 30 (count 3), labelled by its center 45. -/
theorem c4_modes_characterized_witness :
    (0 : Int) < 30 ∧
    calculate_visit_modes
        [PyVal.pint 10, PyVal.pint 10, PyVal.pint 40, PyVal.pint 40, PyVal.pint 40] 30 =
      .ok ((modeCategories
        [PyVal.pint 10, PyVal.pint 10, PyVal.pint 40, PyVal.pint 40, PyVal.pint 40] 30).map
          (centerLabel 30),
        maxCount (freqList
          [PyVal.pint 10, PyVal.pint 10, PyVal.pint 40, PyVal.pint 40, PyVal.pint 40] 30)) ∧
    modeCategories
        [PyVal.pint 10, PyVal.pint 10, PyVal.pint 40, PyVal.pint 40, PyVal.pint 40] 30 = [30] ∧
    maxCount (freqList
        [PyVal.pint 10, PyVal.pint 10, PyVal.pint 40, PyVal.pint 40, PyVal.pint 40] 30) = 3 ∧
    centerLabel 30 30 = "00:45" :=
  ⟨by norm_num,
    (c4_modes_characterized
      [PyVal.pint 10, PyVal.pint 10, PyVal.pint 40, PyVal.pint 40, PyVal.pint 40] 30
      (by norm_num) (by decide) (by decide)).1,
    rfl, rfl,
    by
      norm_num [centerLabel, btime, btimeTidy, btimeRender, pyRound,
        Rat.floor_def', hhmm, two_digits, digitChar]
      decide⟩

/-! ### Here-list invariant (C2) -/

theorem mkBlocks_length (ev : List Event) (here0 : Finset String)
    (grid : List Nat) : (mkBlocks ev here0 grid).length = grid.length := by
  induction grid generalizing here0 with
  | nil => rfl
  | cons b bs ih => simp [mkBlocks, ih]

theorem mkBlocks_here_first (ev : List Event) (here0 : Finset String)
    (grid : List Nat) (h : 0 < (mkBlocks ev here0 grid).length) :
    ((mkBlocks ev here0 grid).get ⟨0, h⟩).here_list =
      applyEv here0 ((mkBlocks ev here0 grid).get ⟨0, h⟩).ins_list
        ((mkBlocks ev here0 grid).get ⟨0, h⟩).outs_list := by
  cases grid with
  | nil => simp [mkBlocks] at h
  | cons b bs => rfl

theorem mkBlocks_here_adjacent (ev : List Event) (grid : List Nat) :
    ∀ (here0 : Finset String) (i : Nat)
      (h : i + 1 < (mkBlocks ev here0 grid).length),
    ((mkBlocks ev here0 grid).get ⟨i + 1, h⟩).here_list =
      applyEv (((mkBlocks ev here0 grid).get ⟨i, by omega⟩).here_list)
        ((mkBlocks ev here0 grid).get ⟨i + 1, h⟩).ins_list
        ((mkBlocks ev here0 grid).get ⟨i + 1, h⟩).outs_list := by
  induction grid with
  | nil => intro here0 i h; simp [mkBlocks] at h
  | cons b bs ih =>
      intro here0 i h
      cases i with
      | zero =>
          have h0 : 0 < (mkBlocks ev
              (applyEv here0 ((((mkBlocks ev here0 (b :: bs))).get
                ⟨0, by omega⟩).ins_list)
                ((((mkBlocks ev here0 (b :: bs))).get ⟨0, by omega⟩).outs_list))
              bs).length := by
            have := mkBlocks_length ev here0 (b :: bs)
            have h2 := h
            rw [this] at h2
            rw [mkBlocks_length]
            simpa using h2
          exact mkBlocks_here_first ev _ bs h0
      | succ j =>
          exact ih _ j (by simpa [mkBlocks] using h)

/-- C2: in every successful aggregation output, the tags present at the
end of block `t` equal the union of the previous block's ending
`here_list` with block `t`'s `ins_list`, minus its `outs_list`; the first
block's incoming `here_list` is empty. -/
theorem c2_here_list_invariant (d : DayData) (a : Option PyVal)
    (bs : List Block) (h : d.calc_blocks a = .ok bs) :
    (∀ h0 : 0 < bs.length,
      (bs.get ⟨0, h0⟩).here_list =
        (∅ ∪ (bs.get ⟨0, h0⟩).ins_list.toFinset) \
          (bs.get ⟨0, h0⟩).outs_list.toFinset) ∧
    (∀ i (hi : i + 1 < bs.length),
      (bs.get ⟨i + 1, hi⟩).here_list =
        ((bs.get ⟨i, by omega⟩).here_list ∪
          (bs.get ⟨i + 1, hi⟩).ins_list.toFinset) \
          (bs.get ⟨i + 1, hi⟩).outs_list.toFinset) := by
  rw [DayData.calc_blocks] at h
  cases hg : getTimeblockStarts d (resolveAsOf d a) with
  | error e => rw [hg] at h; cases h
  | ok grid =>
      rw [hg] at h
      have hbs : bs = mkBlocks (calcEvents d (resolveAsOf d a)) ∅ grid :=
        (Except.ok.inj h).symm
      subst hbs
      constructor
      · intro h0
        exact mkBlocks_here_first _ _ _ h0
      · intro i hi
        exact mkBlocks_here_adjacent _ _ _ i hi

/-- Witness for C2 on `dayW`: the single block's ending `here_list` is
`(∅ ∪ {a}) \ {a}`. -/
theorem c2_here_list_invariant_witness :
    DayData.calc_blocks dayW none = .ok [blkW] ∧
    blkW.here_list = (∅ ∪ blkW.ins_list.toFinset) \ blkW.outs_list.toFinset := by
  have h : DayData.calc_blocks dayW none = .ok [blkW] := by rfl
  exact ⟨h, (c2_here_list_invariant dayW none [blkW] h).1 (by norm_num)⟩

theorem runAfter_append (l1 l2 : List Event) (s : Finset String) :
    runAfter (l1 ++ l2) s = runAfter l2 (runAfter l1 s) := by
  simp [runAfter, List.foldl_append]

theorem chainFrom_eventsGo (ins outs : List (Nat × String)) :
    ∀ (ts : List Nat) (s : Finset String), ChainFrom s (eventsGo ins outs s ts)
  | [], _ => trivial
  | _ :: ts, _ => ⟨rfl, rfl, chainFrom_eventsGo ins outs ts _⟩

theorem chainFrom_append_left (l1 l2 : List Event) :
    ∀ s : Finset String, ChainFrom s (l1 ++ l2) → ChainFrom s l1 := by
  induction l1 with
  | nil => intro s _; trivial
  | cons e es ih =>
      intro s h
      obtain ⟨h1, h2, h3⟩ := h
      exact ⟨h1, h2, ih _ h3⟩

theorem chainFrom_num (l : List Event) :
    ∀ s : Finset String, ChainFrom s l →
      ∀ e ∈ l, e.num_here_total = e.bikes_here.card := by
  induction l with
  | nil => intro s _ e he; simp at he
  | cons x xs ih =>
      intro s h e he
      obtain ⟨h1, h2, h3⟩ := h
      rcases List.mem_cons.mp he with rfl | he
      · exact h2
      · exact ih _ h3 e he

theorem chainFrom_getLast? (l : List Event) :
    ∀ (s : Finset String) (e : Event), ChainFrom s l → l.getLast? = some e →
      e.bikes_here = runAfter l s := by
  induction l with
  | nil => intro s e _ hlast; cases hlast
  | cons x xs ih =>
      intro s e h hlast
      obtain ⟨h1, h2, h3⟩ := h
      cases xs with
      | nil =>
          have hx : x = e := by simpa using hlast
          subst hx
          simpa [runAfter, applyEv] using h1
      | cons y ys =>
          rw [List.getLast?_cons_cons] at hlast
          have := ih x.bikes_here e h3 hlast
          rw [this]
          show runAfter (y :: ys) x.bikes_here =
            runAfter (y :: ys) (applyEv s x.bikes_in x.bikes_out)
          rw [← h1]

theorem getLast?_mem_self (l : List Event) (e : Event)
    (h : l.getLast? = some e) : e ∈ l := by
  obtain ⟨hne, he⟩ := List.mem_getLast?_eq_getLast (by rw [h]; rfl)
  rw [he]
  exact List.getLast_mem hne

theorem mem_runAfter_of_notin_outs (x : String) (l : List Event) :
    ∀ s : Finset String, (∀ e ∈ l, x ∉ e.bikes_out) →
      (x ∈ s ∨ ∃ e ∈ l, x ∈ e.bikes_in) → x ∈ runAfter l s := by
  induction l with
  | nil =>
      intro s _ hmem
      rcases hmem with h | h
      · simpa [runAfter] using h
      · simp at h
  | cons e es ih =>
      intro s hno hmem
      have hnoe : x ∉ e.bikes_out := hno e (List.mem_cons_self e es)
      have step : runAfter (e :: es) s =
          runAfter es (applyEv s e.bikes_in e.bikes_out) := rfl
      rw [step]
      apply ih _ (fun e' he' => hno e' (List.mem_cons_of_mem e he'))
      rcases hmem with h | ⟨e', he', hx⟩
      · left
        simp only [applyEv, Finset.mem_sdiff, Finset.mem_union]
        exact ⟨Or.inl h, fun hc => hnoe (List.mem_toFinset.mp hc)⟩
      · rcases List.mem_cons.mp he' with rfl | he''
        · left
          simp only [applyEv, Finset.mem_sdiff, Finset.mem_union]
          exact ⟨Or.inr (List.mem_toFinset.mpr hx),
            fun hc => hnoe (List.mem_toFinset.mp hc)⟩
        · exact Or.inr ⟨e', he'', hx⟩

theorem applyEv_subset_runAfter (l : List Event) (here0 s : Finset String)
    (hsub : here0 ⊆ s) :
    applyEv here0 ((l.map Event.bikes_in).flatten)
      ((l.map Event.bikes_out).flatten) ⊆ runAfter l s := by
  intro x hx
  simp only [applyEv, Finset.mem_sdiff, Finset.mem_union] at hx
  obtain ⟨hin, hnotout⟩ := hx
  have hno : ∀ e ∈ l, x ∉ e.bikes_out := by
    intro e he hxe
    exact hnotout (List.mem_toFinset.mpr
      (List.mem_flatten.mpr ⟨e.bikes_out, List.mem_map_of_mem _ he, hxe⟩))
  apply mem_runAfter_of_notin_outs x l s hno
  rcases hin with hin | hin
  · exact Or.inl (hsub hin)
  · right
    obtain ⟨li, hli, hxl⟩ := List.mem_flatten.mp (List.mem_toFinset.mp hin)
    obtain ⟨e, he, rfl⟩ := List.mem_map.mp hli
    exact ⟨e, he, hxl⟩

theorem sorted_filter_prefix (l : List Event) (C : Nat)
    (hs : l.Pairwise (fun a b : Event => a.event_time ≤ b.event_time)) :
    ∃ l2, l = l.filter (fun e => decide (e.event_time < C)) ++ l2 := by
  induction l with
  | nil => exact ⟨[], rfl⟩
  | cons e es ih =>
      rcases List.pairwise_cons.mp hs with ⟨he, hes⟩
      by_cases hc : e.event_time < C
      · obtain ⟨l2, hl2⟩ := ih hes
        refine ⟨l2, ?_⟩
        rw [List.filter_cons, if_pos (by simpa using hc), List.cons_append]
        exact congrArg (List.cons e) hl2
      · refine ⟨e :: es, ?_⟩
        have hnil : (e :: es).filter (fun e => decide (e.event_time < C)) = [] := by
          rw [List.filter_eq_nil_iff]
          intro a ha
          rcases List.mem_cons.mp ha with rfl | ha
          · simpa using hc
          · have h2 := he a ha
            simp only [decide_eq_true_eq]
            omega
        rw [hnil]
        rfl

theorem sorted_filter_split (l : List Event) (B C : Nat) (hBC : B ≤ C)
    (hs : l.Pairwise (fun a b : Event => a.event_time ≤ b.event_time)) :
    l.filter (fun e => decide (e.event_time < C)) =
      l.filter (fun e => decide (e.event_time < B)) ++
      l.filter (fun e => decide (B ≤ e.event_time ∧ e.event_time < C)) := by
  induction l with
  | nil => rfl
  | cons e es ih =>
      rcases List.pairwise_cons.mp hs with ⟨he, hes⟩
      rcases Nat.lt_or_ge e.event_time B with h1 | h1
      · rw [List.filter_cons, List.filter_cons, List.filter_cons,
          if_pos (by simp only [decide_eq_true_eq]; omega),
          if_pos (by simp only [decide_eq_true_eq]; omega),
          if_neg (by simp only [decide_eq_true_eq]; omega),
          List.cons_append]
        exact congrArg (List.cons e) (ih hes)
      rcases Nat.lt_or_ge e.event_time C with h2 | h2
      · have hallB : es.filter (fun e => decide (e.event_time < B)) = [] := by
          rw [List.filter_eq_nil_iff]
          intro a ha
          have h3 := he a ha
          simp only [decide_eq_true_eq]
          omega
        rw [List.filter_cons, List.filter_cons, List.filter_cons,
          if_pos (by simp only [decide_eq_true_eq]; omega),
          if_neg (by simp only [decide_eq_true_eq]; omega),
          if_pos (by simp only [decide_eq_true_eq]; omega),
          hallB, List.nil_append]
        refine congrArg (List.cons e) (List.filter_congr ?_)
        intro a ha
        have h3 := he a ha
        apply decide_eq_decide.mpr
        omega
      · rw [List.filter_cons, List.filter_cons, List.filter_cons,
          if_neg (by simp only [decide_eq_true_eq]; omega),
          if_neg (by simp only [decide_eq_true_eq]; omega),
          if_neg (by simp only [decide_eq_true_eq]; omega)]
        exact ih hes

theorem blockStart_eq_iff (b t : Nat) (hdvd : BLOCK_DURATION ∣ b) :
    blockStartNat t = b ↔ b ≤ t ∧ t < b + BLOCK_DURATION := by
  simp only [blockStartNat, BLOCK_DURATION] at *
  omega

theorem foldl_maxhere_fst_ge_init (evs : List Event) (p : Nat × Finset String) :
    p.1 ≤ (evs.foldl (fun p e =>
      if e.num_here_total > p.1 then (e.num_here_total, e.bikes_here) else p) p).1 := by
  induction evs generalizing p with
  | nil => exact le_refl _
  | cons e es ih =>
      refine le_trans ?_ (ih _)
      show p.1 ≤ (if e.num_here_total > p.1
        then (e.num_here_total, e.bikes_here) else p).1
      by_cases h : e.num_here_total > p.1
      · rw [if_pos h]; exact le_of_lt h
      · rw [if_neg h]

theorem maxHereFold_ge (evs : List Event) :
    ∀ e ∈ evs, e.num_here_total ≤ (maxHereFold evs).1 := by
  suffices h : ∀ (p : Nat × Finset String), ∀ e ∈ evs,
      e.num_here_total ≤ (evs.foldl (fun p e =>
        if e.num_here_total > p.1 then (e.num_here_total, e.bikes_here) else p) p).1 by
    exact h (0, ∅)
  induction evs with
  | nil => intro p e he; simp at he
  | cons x xs ih =>
      intro p e he
      rcases List.mem_cons.mp he with rfl | he
      · refine le_trans ?_ (foldl_maxhere_fst_ge_init xs _)
        show e.num_here_total ≤ (if e.num_here_total > p.1
          then (e.num_here_total, e.bikes_here) else p).1
        by_cases h : e.num_here_total > p.1
        · rw [if_pos h]
        · rw [if_neg h]; omega
      · exact ih _ e he

theorem mkBlocks_inv (events : List Event)
    (hch : ChainFrom ∅ events)
    (hs : events.Pairwise (fun a b : Event => a.event_time ≤ b.event_time)) :
    ∀ (n b0 : Nat) (here0 : Finset String), BLOCK_DURATION ∣ b0 →
      here0 ⊆ runAfter (events.filter (fun e => decide (e.event_time < b0))) ∅ →
      ∀ blk ∈ mkBlocks events here0 (List.range' b0 n BLOCK_DURATION),
        (blk.ins_list ≠ [] ∨ blk.outs_list ≠ []) → blk.num_here ≤ blk.max_here := by
  intro n
  induction n with
  | zero => intro b0 here0 _ _ blk hblk; simp [List.range', mkBlocks] at hblk
  | succ m ih =>
      intro b0 here0 hdvd hsub blk hblk hne
      rw [List.range'_succ, mkBlocks] at hblk
      set evs := events.filter (fun e => decide (blockStartNat e.event_time = b0)) with hevs
      set insl := (evs.map Event.bikes_in).flatten with hinsl
      set outsl := (evs.map Event.bikes_out).flatten with houtsl
      set here2 := applyEv here0 insl outsl with hhere2
      have hmid : evs = events.filter
          (fun e => decide (b0 ≤ e.event_time ∧ e.event_time < b0 + BLOCK_DURATION)) := by
        rw [hevs]
        exact List.filter_congr (fun a _ => decide_eq_decide.mpr
          (blockStart_eq_iff b0 a.event_time hdvd))
      have hsplitC : events.filter (fun e => decide (e.event_time < b0 + BLOCK_DURATION)) =
          events.filter (fun e => decide (e.event_time < b0)) ++ evs := by
        rw [hmid]
        exact sorted_filter_split events b0 (b0 + BLOCK_DURATION) (by omega) hs
      have hsub2 : here2 ⊆ runAfter
          (events.filter (fun e => decide (e.event_time < b0 + BLOCK_DURATION))) ∅ := by
        rw [hsplitC, runAfter_append]
        exact applyEv_subset_runAfter evs here0 _ hsub
      rcases List.mem_cons.mp hblk with rfl | htail
      · show here2.card ≤ (maxHereFold evs).1
        have hevsne : evs ≠ [] := by
          intro hnil
          rcases hne with hi | ho
          · exact hi (by show insl = []; rw [hinsl, hnil]; rfl)
          · exact ho (by show outsl = []; rw [houtsl, hnil]; rfl)
        obtain ⟨elast, hlast⟩ : ∃ e, evs.getLast? = some e := by
          cases hq : evs.getLast? with
          | none => exact absurd (List.getLast?_eq_none_iff.mp hq) hevsne
          | some e => exact ⟨e, rfl⟩
        have hlastC : (events.filter
            (fun e => decide (e.event_time < b0 + BLOCK_DURATION))).getLast? =
            some elast := by
          rw [hsplitC, List.getLast?_append_of_ne_nil _ hevsne, hlast]
        obtain ⟨l2, hl2⟩ := sorted_filter_prefix events (b0 + BLOCK_DURATION) hs
        have hchainC : ChainFrom ∅ (events.filter
            (fun e => decide (e.event_time < b0 + BLOCK_DURATION))) :=
          chainFrom_append_left _ l2 ∅ (hl2 ▸ hch)
        have hlasthere := chainFrom_getLast? _ ∅ elast hchainC hlastC
        have hlastmem : elast ∈ evs := getLast?_mem_self evs elast hlast
        have hlastmemC : elast ∈ events.filter
            (fun e => decide (e.event_time < b0 + BLOCK_DURATION)) := by
          rw [hsplitC]
          exact List.mem_append_right _ hlastmem
        have hlastnum := chainFrom_num _ ∅ hchainC elast hlastmemC
        calc here2.card
            ≤ (runAfter (events.filter
                (fun e => decide (e.event_time < b0 + BLOCK_DURATION))) ∅).card :=
              Finset.card_le_card hsub2
          _ = elast.bikes_here.card := by rw [hlasthere]
          _ = elast.num_here_total := hlastnum.symm
          _ ≤ (maxHereFold evs).1 := maxHereFold_ge evs elast hlastmem
      · exact ih (b0 + BLOCK_DURATION) here2
          (Dvd.dvd.add hdvd (dvd_refl BLOCK_DURATION)) hsub2 blk htail hne

theorem eventsGo_times (ins outs : List (Nat × String)) :
    ∀ (ts : List Nat) (s : Finset String),
      (eventsGo ins outs s ts).map Event.event_time = ts := by
  intro ts
  induction ts with
  | nil => intro s; rfl
  | cons t ts ih => intro s; simp only [eventsGo, List.map_cons, ih]

theorem calcEvents_sorted (d : DayData) (asOf : Option Nat) :
    (calcEvents d asOf).Pairwise
      (fun a b : Event => a.event_time ≤ b.event_time) := by
  rw [calcEvents]
  apply List.pairwise_map.mp
  rw [eventsGo_times]
  have h := pairwise_sortB (fun a b : Nat => decide (a ≤ b))
    (fun a b c hab hbc => decide_eq_true
      (le_trans (of_decide_eq_true hab) (of_decide_eq_true hbc)))
    (fun a b => by
      rcases Nat.le_total a b with h | h
      · exact Or.inl (decide_eq_true h)
      · exact Or.inr (decide_eq_true h))
    (pyDedup ((includedPairs Visit.time_in d asOf).map Prod.fst ++
      (includedPairs Visit.time_out d asOf).map Prod.fst))
  exact h.imp (fun hab => of_decide_eq_true hab)

theorem calcEvents_chain (d : DayData) (asOf : Option Nat) :
    ChainFrom ∅ (calcEvents d asOf) :=
  chainFrom_eventsGo _ _ _ ∅

theorem getTimeblockStarts_shape (d : DayData) (asOf : Option Nat)
    (grid : List Nat) (h : getTimeblockStarts d asOf = .ok grid) :
    grid = [] ∨ ∃ b0 n, BLOCK_DURATION ∣ b0 ∧
      grid = List.range' b0 n BLOCK_DURATION := by
  rw [getTimeblockStarts] at h
  split at h
  · exact Or.inl (Except.ok.inj h).symm
  · split at h
    · rename_i mn mx hmn hmx
      refine Or.inr ⟨blockStartNat mn,
        (blockStartNat mx - blockStartNat mn) / BLOCK_DURATION + 1,
        ⟨mn / BLOCK_DURATION, mul_comm _ _⟩, (Except.ok.inj h).symm⟩
    · cases h

/-- C3 (amended): in every successful aggregation output, every block's
`num_here` is non-negative, and `max_here ≥ num_here` holds for every
block that contains at least one event (`ins_list` or `outs_list`
non-empty).  A block with no events keeps `max_here = 0` — the draft
`Block.__init__` starting value — while the carried occupancy `num_here`
may be positive, so the claimed inequality fails there (see the
counterexample). -/
theorem c3_max_here_amended (d : DayData) (a : Option PyVal)
    (bs : List Block) (h : d.calc_blocks a = .ok bs) :
    ∀ blk ∈ bs, 0 ≤ blk.num_here ∧
      ((blk.ins_list ≠ [] ∨ blk.outs_list ≠ []) →
        blk.num_here ≤ blk.max_here) := by
  rw [DayData.calc_blocks] at h
  cases hg : getTimeblockStarts d (resolveAsOf d a) with
  | error e => rw [hg] at h; cases h
  | ok grid =>
      rw [hg] at h
      have hbs := (Except.ok.inj h).symm
      subst hbs
      intro blk hblk
      refine ⟨Nat.zero_le _, fun hne => ?_⟩
      rcases getTimeblockStarts_shape d _ grid hg with rfl | ⟨b0, n, hdvd, rfl⟩
      · simp [mkBlocks] at hblk
      · exact mkBlocks_inv (calcEvents d (resolveAsOf d a))
          (calcEvents_chain d _) (calcEvents_sorted d _) n b0 ∅ hdvd
          (Finset.empty_subset _) blk hblk hne

/-- Counterexample for C3 as stated: aggregating `dayC3` yields blocks
600, 630, 660; the event-less middle block 630 carries one bike
(`num_here = 1`) but its high-water mark is 0, violating
`max_here ≥ num_here`. -/
theorem c3_gap_block_cex :
    (DayData.calc_blocks dayC3 none).map (fun bs =>
      bs.map (fun b => (b.time_start, b.num_here, b.max_here))) =
      .ok [(600, 1, 1), (630, 1, 0), (660, 0, 0)] := rfl

/-- Witness for C3 on `dayW`, whose single block has events. -/
theorem c3_max_here_amended_witness :
    DayData.calc_blocks dayW none = .ok [blkW] ∧ blkW.ins_list ≠ [] ∧
    0 ≤ blkW.num_here ∧ blkW.num_here ≤ blkW.max_here := by
  have h : DayData.calc_blocks dayW none = .ok [blkW] := by rfl
  have h2 := c3_max_here_amended dayW none [blkW] h blkW (by simp)
  exact ⟨h, by decide, h2.1, h2.2 (Or.inl (by decide))⟩
